import Mathlib

open scoped List

set_option maxRecDepth 100000

/-!
Shallow embedding of the `huffman_coding` Rust library (`src/lib.rs`).

Byte values (`u8`) are modelled as `Nat` together with explicit `< 256`
hypotheses (and `% 256` where the source casts with `as u8`).  Fallible
operations (Rust panics via `unwrap`, `usize` division by zero, and
`io::Error` returns) are modelled with `Option`: `none` is the failure.

The Rust code relies on two external crates kept outside this repository:
`std::collections::BinaryHeap` and `bitstream`.  The heap is modelled from
its documented contract (a max-heap for the library's inverted `Ord`, i.e.
`pop` returns an element of minimal probability) as a list kept sorted by
probability; the pop order among equal-probability elements is unspecified
in Rust and fixed here to insertion order.  The `bitstream`
`BitWriter`/`BitReader` pair is modelled as a transparent bit channel: the
reader yields exactly the bits the writer received, then end-of-stream.
-/

/-- Embedding of `enum HuffmanTree { Leaf(u8, u8), Node(Box<HuffmanTree>, Box<HuffmanTree>) }`
(`src/lib.rs:36-39`).  In `node zero one`, `zero` is the subtree reached by
bit 0 and `one` by bit 1.  Equality of this inductive type coincides with
the structural `PartialEq` implemented at `src/lib.rs:64-76`. -/
inductive HuffmanTree where
  | leaf (sym : Nat) (weight : Nat)
  | node (zero : HuffmanTree) (one : HuffmanTree)
deriving DecidableEq, Repr

namespace HuffmanTree

/-- Embedding of `HuffmanTree::get_probability` (`src/lib.rs:190-197`).
The Rust sum is in `u16`; in every use (trees whose leaves come from a
256-entry table of `u8` weights) the sum is at most `256 * 255 < 2^16`,
so plain `Nat` addition is exact. -/
def getProbability : HuffmanTree → Nat
  | .leaf _ prob => prob
  | .node zero one => zero.getProbability + one.getProbability

/-- Embedding of `HuffmanTree::get_byte_prob` (`src/lib.rs:169-177`):
probability of `byte` according to the tree, `none` when absent. -/
def get_byte_prob : HuffmanTree → Nat → Option Nat
  | .leaf item prob, byte => if item = byte then some prob else none
  | .node zero one, byte => (zero.get_byte_prob byte).or (one.get_byte_prob byte)

/-- In-order list of `(symbol, weight)` pairs of the leaves of a tree. -/
def leafPairs : HuffmanTree → List (Nat × Nat)
  | .leaf sym weight => [(sym, weight)]
  | .node zero one => zero.leafPairs ++ one.leafPairs

/-- Number of leaves of a tree. -/
def numLeaves : HuffmanTree → Nat
  | .leaf _ _ => 1
  | .node zero one => zero.numLeaves + one.numLeaves

/-- Number of internal (`node`) vertices of a tree. -/
def numNodes : HuffmanTree → Nat
  | .leaf _ _ => 0
  | .node zero one => zero.numNodes + one.numNodes + 1

/-- Checks that in every `node` of the tree the aggregate probability of the
`zero` child is at least that of the `one` child. -/
def subNodesOrdered : HuffmanTree → Bool
  | .leaf _ _ => true
  | .node zero one =>
    decide (one.getProbability ≤ zero.getProbability)
      && zero.subNodesOrdered && one.subNodesOrdered

end HuffmanTree

/-- Heap order used to model `BinaryHeap<HuffmanTree>`: the inverted `Ord`
of `src/lib.rs:41-56` makes Rust's max-heap pop a tree of minimal
`get_probability`, so the model keeps the list sorted by probability
ascending with the pop side at the head. -/
def heapRel (a b : HuffmanTree) : Prop :=
  a.getProbability ≤ b.getProbability

instance : DecidableRel heapRel := fun a b =>
  inferInstanceAs (Decidable (a.getProbability ≤ b.getProbability))

instance : IsTotal HuffmanTree heapRel :=
  ⟨fun a b => Nat.le_total a.getProbability b.getProbability⟩

instance : IsTrans HuffmanTree heapRel :=
  ⟨fun _ _ _ h1 h2 => Nat.le_trans h1 h2⟩

/-- Model of `BinaryHeap::push`: insert keeping the list sorted by
probability; among equal probabilities the position is a fixed choice for
behaviour `std` leaves unspecified. -/
def heapPush (h : List HuffmanTree) (t : HuffmanTree) : List HuffmanTree :=
  h.orderedInsert heapRel t

/-- Model of collecting an iterator into a `BinaryHeap` (`src/lib.rs:103-108`). -/
def heapOfList (l : List HuffmanTree) : List HuffmanTree :=
  l.foldl heapPush []

/-- One merge step plus loop of `HuffmanTree::from_table`
(`src/lib.rs:110-119`): while more than 2 elements remain, pop the two
lowest-probability trees `a` then `b` and push `if a < b { Node(a, b) } else
{ Node(b, a) }` — under the inverted `Ord`, `a < b` is
`b.get_probability < a.get_probability`.  The loop is driven by fuel; each
iteration shrinks the heap by one, so fuel equal to the initial length
always suffices. -/
def mergeLoop : Nat → List HuffmanTree → List HuffmanTree
  | 0, heap => heap
  | fuel + 1, heap =>
    if 2 < heap.length then
      match heap with
      | a :: b :: rest =>
        mergeLoop fuel (heapPush rest
          (if b.getProbability < a.getProbability then .node a b else .node b a))
      | _ => heap
    else heap

namespace HuffmanTree

/-- The `(index, entry)` pairs of the nonzero table entries, in index
order: the result of `data.iter().enumerate().filter(|x| *x.1 > 0)`
(`src/lib.rs:103-106`). -/
def nonzeroPairs (data : List Nat) : List (Nat × Nat) :=
  data.enum.filter (fun x => 0 < x.2)

/-- One `Leaf` per nonzero table entry (`src/lib.rs:107`). -/
def tableLeaves (data : List Nat) : List HuffmanTree :=
  (nonzeroPairs data).map (fun x => HuffmanTree.leaf x.1 x.2)

/-- Embedding of `HuffmanTree::from_table` (`src/lib.rs:102-123`): one leaf
per nonzero table entry, greedy merge, and a final `Node(a, b)` from the two
remaining pops in pop order.  The two `pop().unwrap()` calls panic when
fewer than 2 entries are nonzero; that failure is `none`. -/
def from_table (data : List Nat) : Option HuffmanTree :=
  let heap := heapOfList (tableLeaves data)
  match mergeLoop heap.length heap with
  | a :: b :: _ => some (.node a b)
  | _ => none

/-- Embedding of `HuffmanTree::normalize` (`src/lib.rs:179-188`).  Entries
with a positive count become `cmp::max((count * 255 / max_elem) as u8, 1)`;
the `as u8` cast is `% 256`.  The `usize` division panics when
`max_elem = 0`, which is reachable only for a positive count (the `data[i] > 0`
guard skips zero counts); that panic is `none`. -/
def normalize : List Nat → Nat → Option (List Nat)
  | [], _ => some []
  | c :: rest, maxElem =>
    if 0 < c then
      if maxElem = 0 then none
      else (normalize rest maxElem).map
        (fun l => Nat.max ((c * 255 / maxElem) % 256) 1 :: l)
    else (normalize rest maxElem).map (fun l => 0 :: l)

/-- The 256-entry frequency-count array built by the loop of
`HuffmanTree::from_data` (`src/lib.rs:138-146`): entry `i` counts the
occurrences of byte `i` in the input. -/
def countsOf (data : List Nat) : List Nat :=
  (List.range 256).map (fun i => data.count i)

/-- The running maximum `max` maintained by the same loop: it equals the
maximum entry of the final count array. -/
def maxCount (data : List Nat) : Nat :=
  (countsOf data).foldr Nat.max 0

/-- Embedding of `HuffmanTree::from_data` (`src/lib.rs:137-150`): count,
normalize, then build from the table. -/
def from_data (data : List Nat) : Option HuffmanTree :=
  (normalize (countsOf data) (maxCount data)).bind from_table

/-- Embedding of `HuffmanTree::to_table` (`src/lib.rs:156-162`):
`table[i] = get_byte_prob(i).unwrap_or(0)` for `i` in `0..256`. -/
def to_table (t : HuffmanTree) : List Nat :=
  (List.range 256).map (fun i => (t.get_byte_prob i).getD 0)

/-- Embedding of `HuffmanTree::to_lookup_table_inner` (`src/lib.rs:205-219`).
The `HashMap` is modelled as a function `Nat → Option (List Bool)`; the
zero subtree is traversed first and the one subtree second, so on a
duplicate symbol the later (`one`-side) insert wins, which the nesting
reproduces by consulting the `one` side first. -/
def lookupInner (t : HuffmanTree) (data : Nat → Option (List Bool))
    (prev : List Bool) : Nat → Option (List Bool) :=
  match t with
  | .leaf elem _ => fun b => if b = elem then some prev else data b
  | .node zero one =>
    lookupInner one (lookupInner zero data (prev ++ [false])) (prev ++ [true])

/-- Embedding of `HuffmanTree::to_lookup_table` (`src/lib.rs:199-203`). -/
def to_lookup_table (t : HuffmanTree) : Nat → Option (List Bool) :=
  lookupInner t (fun _ => none) []

end HuffmanTree

/-- Walk a tree along a list of bits: `false` selects the zero child,
`true` the one child; walking past a leaf fails. -/
def followPath : HuffmanTree → List Bool → Option HuffmanTree
  | t, [] => some t
  | .leaf _ _, _ :: _ => none
  | .node zero one, b :: rest => followPath (if b then one else zero) rest

/-- Embedding of `HuffmanWriter::write` (`src/lib.rs:256-264`): for each
input byte look up its bit path (`none` — the `InvalidData` error — when
absent) and append its bits to the sink; on success Rust returns
`Ok(buf.len())`, modelled as the running count paired with the emitted
bits. -/
def writeBytes (table : Nat → Option (List Bool)) :
    List Nat → Option (Nat × List Bool)
  | [] => some (0, [])
  | b :: rest =>
    match table b with
    | none => none
    | some bits =>
      match writeBytes table rest with
      | none => none
      | some (n, out) => some (n + 1, bits ++ out)

/-- Embedding of `HuffmanReader::read` (`src/lib.rs:303-333`).  Arguments:
the tree root, the current walk state (initialised to the root at the top
of `read`), the remaining bits of the source, and the free space left in
`buf`.  The result collects the bytes stored into `buf`; `none` is the
`InvalidData` error raised when the bits end while the state differs
(structurally) from the root. -/
def readLoop (root : HuffmanTree) : HuffmanTree → List Bool → Nat → Option (List Nat)
  | _, _, 0 => some []
  | state, [], _ + 1 => if state = root then some [] else none
  | state, bit :: rest, n + 1 =>
    match state with
    | .leaf x _ => (readLoop root root rest n).map (fun l => x :: l)
    | .node zero one =>
      match (if bit then one else zero) with
      | .leaf x _ => (readLoop root root rest n).map (fun l => x :: l)
      | s => readLoop root s rest (n + 1)

namespace HuffmanTree

/-! ### Facts about `normalize`, `countsOf` and `maxCount` -/

theorem le_foldr_max {l : List Nat} {c : Nat} (h : c ∈ l) :
    c ≤ l.foldr Nat.max 0 := by
  induction l with
  | nil => cases h
  | cons a l ih =>
    rcases List.mem_cons.mp h with rfl | h
    · exact Nat.le_max_left _ _
    · exact Nat.le_trans (ih h) (Nat.le_max_right _ _)

theorem div_bound {c mx : Nat} (hc : c ≤ mx) (hmx : 0 < mx) :
    c * 255 / mx ≤ 255 := by
  calc c * 255 / mx ≤ mx * 255 / mx :=
        Nat.div_le_div_right (Nat.mul_le_mul_right 255 hc)
    _ = 255 := Nat.mul_div_cancel_left 255 hmx

/-- Under the invariant that `mx` bounds every count (true when `mx` is the
running maximum of the counts), `normalize` never hits the division by zero
and the `as u8` cast is the identity. -/
theorem normalize_eq_map {counts : List Nat} {mx : Nat}
    (h : ∀ c ∈ counts, c ≤ mx) :
    normalize counts mx =
      some (counts.map fun c => if 0 < c then Nat.max (c * 255 / mx) 1 else 0) := by
  induction counts with
  | nil => rfl
  | cons c rest ih =>
    have hc : c ≤ mx := h c (List.mem_cons_self c rest)
    have hrest : ∀ x ∈ rest, x ≤ mx := fun x hx => h x (List.mem_cons_of_mem c hx)
    by_cases hpos : 0 < c
    · have hmx : 0 < mx := Nat.lt_of_lt_of_le hpos hc
      have hne : ¬ mx = 0 := Nat.pos_iff_ne_zero.mp hmx
      have hmod : (c * 255 / mx) % 256 = c * 255 / mx :=
        Nat.mod_eq_of_lt (Nat.lt_succ_of_le (div_bound hc hmx))
      simp [normalize, hpos, hne, ih hrest, hmod]
    · simp [normalize, hpos, ih hrest]

theorem countsOf_getElem? {data : List Nat} {b : Nat} (hb : b < 256) :
    (countsOf data)[b]? = some (data.count b) := by
  simp [countsOf, List.getElem?_range hb]

theorem count_le_maxCount {data : List Nat} {b : Nat} (hb : b < 256) :
    data.count b ≤ maxCount data := by
  apply le_foldr_max
  have : data.count b ∈ (countsOf data) := by
    simpa [countsOf] using List.mem_map_of_mem (fun i => data.count i)
      (List.mem_range.mpr hb)
  exact this

theorem counts_le_maxCount {data : List Nat} :
    ∀ c ∈ countsOf data, c ≤ maxCount data :=
  fun _ hc => le_foldr_max hc

/-- C4: for a frequency-count list with `maxCount` equal to its maximum,
`normalize` maps each positive count `c` to `max 1 (c * 255 / mx)`
(flooring division) and each zero count to `0`. -/
theorem normalize_formula (counts : List Nat) (mx : Nat)
    (_hlen : counts.length = 256) (hmx : mx = counts.foldr Nat.max 0) :
    normalize counts mx =
      some (counts.map fun c => if 0 < c then Nat.max 1 (c * 255 / mx) else 0) := by
  have h : ∀ c ∈ counts, c ≤ mx := fun c hc => hmx ▸ le_foldr_max hc
  rw [normalize_eq_map h]
  simp only [Nat.max_comm]

/-- Witness for `normalize_formula` at the spec's concrete scenario:
counts `{0 ↦ 2, 1 ↦ 1, 2 ↦ 2}` with maximum 2 normalize to
`{0 ↦ 255, 1 ↦ 127, 2 ↦ 255}`. -/
theorem normalize_formula_witness :
    ([2, 1, 2] ++ List.replicate 253 0).length = 256 ∧
      2 = ([2, 1, 2] ++ List.replicate 253 0).foldr Nat.max 0 ∧
      normalize ([2, 1, 2] ++ List.replicate 253 0) 2 =
        some ([255, 127, 255] ++ List.replicate 253 0) :=
  ⟨by decide, by decide,
    (normalize_formula ([2, 1, 2] ++ List.replicate 253 0) 2
      (by decide) (by decide)).trans (by decide)⟩

/-- C5: when the running maximum is 0 (every count is 0, as when the input
sample was empty), `normalize` executes no division and returns the
all-zero table without error. -/
theorem normalize_maxZero (counts : List Nat)
    (hmx : counts.foldr Nat.max 0 = 0) :
    normalize counts 0 = some (List.replicate counts.length 0) := by
  induction counts with
  | nil => rfl
  | cons c rest ih =>
    rw [List.foldr_cons] at hmx
    obtain ⟨hc, hrest⟩ := Nat.max_eq_zero_iff.mp hmx
    simp [normalize, hc, ih hrest, List.replicate_succ]

/-- Witness for `normalize_maxZero` at the all-zero 256-entry count array. -/
theorem normalize_maxZero_witness :
    (List.replicate 256 0).foldr Nat.max 0 = 0 ∧
      normalize (List.replicate 256 0) 0 =
        some (List.replicate (List.replicate 256 (0 : Nat)).length 0) :=
  ⟨by decide, normalize_maxZero (List.replicate 256 0) (by decide)⟩

/-- C6: for every sample, each nonzero entry of the normalized probability
table lies in `1..255`, and the entry of any byte achieving the maximum
frequency of the sample is exactly `255`. -/
theorem normalize_bounds (data : List Nat) (h : ∀ b ∈ data, b < 256) :
    ∃ tbl, normalize (countsOf data) (maxCount data) = some tbl ∧
      (∀ w ∈ tbl, w ≠ 0 → 1 ≤ w ∧ w ≤ 255) ∧
      (∀ b ∈ data, data.count b = maxCount data → tbl[b]? = some 255) := by
  refine ⟨_, normalize_eq_map counts_le_maxCount, ?_, ?_⟩
  · intro w hw hne
    obtain ⟨c, hc, rfl⟩ := List.mem_map.mp hw
    by_cases hpos : 0 < c
    · have hmx : 0 < maxCount data := Nat.lt_of_lt_of_le hpos (counts_le_maxCount c hc)
      simp only [if_pos hpos]
      exact ⟨Nat.le_max_right _ _,
        Nat.max_le.mpr ⟨div_bound (counts_le_maxCount c hc) hmx, by omega⟩⟩
    · simp [hpos] at hne
  · intro b hb hmax
    have hb256 : b < 256 := h b hb
    have hcount : 0 < data.count b := List.count_pos_iff.mpr hb
    have hmx : 0 < maxCount data := hmax ▸ hcount
    rw [List.getElem?_map, countsOf_getElem? hb256]
    simp only [Option.map_some', hmax, if_pos hmx,
      Nat.mul_div_cancel_left 255 hmx]
    rfl

/-- Witness for `normalize_bounds` on the spec's sample `[0, 0, 1, 2, 2]`. -/
theorem normalize_bounds_witness :
    (∀ b ∈ [0, 0, 1, 2, 2], b < 256) ∧
      ∃ tbl, normalize (countsOf [0, 0, 1, 2, 2]) (maxCount [0, 0, 1, 2, 2]) = some tbl ∧
        (∀ w ∈ tbl, w ≠ 0 → 1 ≤ w ∧ w ≤ 255) ∧
        (∀ b ∈ [0, 0, 1, 2, 2], List.count b [0, 0, 1, 2, 2] = maxCount [0, 0, 1, 2, 2] →
          tbl[b]? = some 255) :=
  ⟨by decide, normalize_bounds [0, 0, 1, 2, 2] (by decide)⟩

/-! ### Structural facts about trees -/

theorem leafPairs_length : ∀ t : HuffmanTree, t.leafPairs.length = t.numLeaves
  | .leaf _ _ => rfl
  | .node zero one => by
    simp [leafPairs, numLeaves, leafPairs_length zero, leafPairs_length one]

theorem numNodes_add_one : ∀ t : HuffmanTree, t.numNodes + 1 = t.numLeaves
  | .leaf _ _ => rfl
  | .node zero one => by
    have hz := numNodes_add_one zero
    have ho := numNodes_add_one one
    simp only [numNodes, numLeaves]
    omega

end HuffmanTree

/-! ### Facts about the heap model -/

open HuffmanTree

theorem heapPush_perm (h : List HuffmanTree) (t : HuffmanTree) :
    heapPush h t ~ t :: h :=
  List.perm_orderedInsert heapRel t h

theorem heapPush_length (h : List HuffmanTree) (t : HuffmanTree) :
    (heapPush h t).length = h.length + 1 :=
  List.orderedInsert_length heapRel h t

theorem heapPush_sorted {h : List HuffmanTree} (hs : List.Sorted heapRel h)
    (t : HuffmanTree) : List.Sorted heapRel (heapPush h t) :=
  List.Sorted.orderedInsert (r := heapRel) t h hs

theorem foldl_heapPush_perm :
    ∀ (l acc : List HuffmanTree), l.foldl heapPush acc ~ acc ++ l
  | [], acc => by simp
  | t :: l, acc =>
    calc (t :: l).foldl heapPush acc
        = l.foldl heapPush (heapPush acc t) := rfl
      _ ~ heapPush acc t ++ l := foldl_heapPush_perm l (heapPush acc t)
      _ ~ (t :: acc) ++ l := (heapPush_perm acc t).append_right l
      _ ~ acc ++ t :: l := List.perm_middle.symm

theorem heapOfList_perm (l : List HuffmanTree) : heapOfList l ~ l := by
  simpa using foldl_heapPush_perm l []

theorem foldl_heapPush_sorted :
    ∀ (l acc : List HuffmanTree), List.Sorted heapRel acc →
      List.Sorted heapRel (l.foldl heapPush acc)
  | [], _, hs => hs
  | t :: l, acc, hs =>
    foldl_heapPush_sorted l (heapPush acc t) (heapPush_sorted hs t)

theorem heapOfList_sorted (l : List HuffmanTree) :
    List.Sorted heapRel (heapOfList l) :=
  foldl_heapPush_sorted l [] List.sorted_nil

/-! ### Facts about the merge loop -/

theorem mergeLoop_of_le_two {fuel : Nat} {h : List HuffmanTree}
    (hlen : h.length ≤ 2) : mergeLoop fuel h = h := by
  cases fuel with
  | zero => rfl
  | succ fuel => simp [mergeLoop, Nat.not_lt_of_le hlen]

theorem mergeLoop_length :
    ∀ (fuel : Nat) (h : List HuffmanTree), 2 ≤ h.length →
      h.length ≤ fuel + 2 → (mergeLoop fuel h).length = 2
  | 0, h, h2, hle => by
    rw [mergeLoop_of_le_two hle]
    omega
  | fuel + 1, h, h2, hle => by
    by_cases hlt : 2 < h.length
    · match h, h2, hle, hlt with
      | a :: b :: c :: rest, h2, hle, hlt' =>
        rw [mergeLoop, if_pos hlt']
        apply mergeLoop_length fuel
        · simp [heapPush_length]
        · simp only [heapPush_length]
          simp only [List.length_cons] at hle ⊢
          omega
    · rw [mergeLoop_of_le_two (Nat.le_of_not_lt hlt)]
      omega

theorem mergeLoop_flatMap :
    ∀ (fuel : Nat) (h : List HuffmanTree),
      (mergeLoop fuel h).flatMap leafPairs ~ h.flatMap leafPairs
  | 0, h => List.Perm.refl _
  | fuel + 1, h => by
    by_cases hlt : 2 < h.length
    · match h, hlt with
      | a :: b :: rest, hlt' =>
        rw [mergeLoop, if_pos hlt']
        set nd := if b.getProbability < a.getProbability
          then HuffmanTree.node a b else HuffmanTree.node b a with hnd
        calc (mergeLoop fuel (heapPush rest nd)).flatMap leafPairs
            ~ (heapPush rest nd).flatMap leafPairs :=
              mergeLoop_flatMap fuel (heapPush rest nd)
          _ ~ (nd :: rest).flatMap leafPairs :=
              (heapPush_perm rest nd).flatMap_right leafPairs
          _ ~ (a :: b :: rest).flatMap leafPairs := by
              simp only [List.flatMap_cons, ← List.append_assoc]
              apply List.Perm.append_right
              rw [hnd]
              by_cases hab : b.getProbability < a.getProbability
              · simp [hab, leafPairs]
              · simp only [if_neg hab, leafPairs]
                exact List.perm_append_comm
    · rw [mergeLoop_of_le_two (Nat.le_of_not_lt hlt)]

theorem mergeLoop_all {P : HuffmanTree → Prop}
    (hP : ∀ a b : HuffmanTree, P a → P b →
      P (if b.getProbability < a.getProbability
        then HuffmanTree.node a b else HuffmanTree.node b a)) :
    ∀ (fuel : Nat) (h : List HuffmanTree), (∀ x ∈ h, P x) →
      ∀ x ∈ mergeLoop fuel h, P x
  | 0, h, hall => hall
  | fuel + 1, h, hall => by
    by_cases hlt : 2 < h.length
    · match h, hall, hlt with
      | a :: b :: rest, hall, hlt' =>
        rw [mergeLoop, if_pos hlt']
        apply mergeLoop_all hP fuel
        intro x hx
        have hx2 := (heapPush_perm rest _).mem_iff.mp hx
        rw [List.mem_cons] at hx2
        rcases hx2 with heq | hx'
        · exact heq ▸ hP a b (hall a (by simp)) (hall b (by simp))
        · exact hall x (by simp [hx'])
    · rw [mergeLoop_of_le_two (Nat.le_of_not_lt hlt)]
      exact hall

theorem mergeLoop_sorted :
    ∀ (fuel : Nat) (h : List HuffmanTree), List.Sorted heapRel h →
      List.Sorted heapRel (mergeLoop fuel h)
  | 0, _, hs => hs
  | fuel + 1, h, hs => by
    by_cases hlt : 2 < h.length
    · match h, hs, hlt with
      | a :: b :: rest, hs, hlt' =>
        rw [mergeLoop, if_pos hlt']
        apply mergeLoop_sorted fuel
        exact heapPush_sorted ((List.sorted_cons.mp (List.sorted_cons.mp hs).2).2) _
    · rw [mergeLoop_of_le_two (Nat.le_of_not_lt hlt)]
      exact hs

/-! ### Characterisation of `from_table` -/

theorem flatMap_leaf_map (l : List (Nat × Nat)) :
    (l.map (fun x => HuffmanTree.leaf x.1 x.2)).flatMap leafPairs = l := by
  induction l with
  | nil => rfl
  | cons p l ih => simp [leafPairs, ih]

theorem flatMap_tableLeaves (data : List Nat) :
    (tableLeaves data).flatMap leafPairs = nonzeroPairs data :=
  flatMap_leaf_map (nonzeroPairs data)

theorem from_table_spec (data : List Nat)
    (h2 : 2 ≤ (tableLeaves data).length) :
    ∃ a b, from_table data = some (.node a b) ∧
      (a.leafPairs ++ b.leafPairs) ~ nonzeroPairs data ∧
      a.getProbability ≤ b.getProbability ∧
      a.subNodesOrdered = true ∧ b.subNodesOrdered = true := by
  have hperm : heapOfList (tableLeaves data) ~ tableLeaves data :=
    heapOfList_perm _
  set H := heapOfList (tableLeaves data) with hH
  have h2H : 2 ≤ H.length := hperm.length_eq ▸ h2
  have hlen2 : (mergeLoop H.length H).length = 2 :=
    mergeLoop_length H.length H h2H (by omega)
  obtain ⟨a, b, hM⟩ : ∃ a b, mergeLoop H.length H = [a, b] := by
    rcases hE : mergeLoop H.length H with _ | ⟨a, _ | ⟨b, _ | _⟩⟩ <;>
      rw [hE] at hlen2 <;> simp_all
  refine ⟨a, b, ?_, ?_, ?_, ?_, ?_⟩
  · simp only [from_table]
    rw [← hH, hM]
  · have h1 := mergeLoop_flatMap H.length H
    rw [hM] at h1
    have h3 := (h1.trans (hperm.flatMap_right leafPairs))
    rw [flatMap_tableLeaves] at h3
    simpa using h3
  · have hs := mergeLoop_sorted H.length H (heapOfList_sorted _)
    rw [hM] at hs
    exact (List.sorted_cons.mp hs).1 b (by simp)
  all_goals {
    have hP : ∀ x y : HuffmanTree, x.subNodesOrdered = true →
        y.subNodesOrdered = true →
        (if y.getProbability < x.getProbability
          then HuffmanTree.node x y else HuffmanTree.node y x).subNodesOrdered
          = true := by
      intro x y hx hy
      by_cases hxy : y.getProbability < x.getProbability
      · simp [if_pos hxy, subNodesOrdered, hx, hy, Nat.le_of_lt hxy]
      · simp [if_neg hxy, subNodesOrdered, hx, hy, Nat.le_of_not_lt hxy]
    have hinit : ∀ x ∈ H, x.subNodesOrdered = true := by
      intro x hx
      obtain ⟨p, _, hpx⟩ := List.mem_map.mp (hperm.mem_iff.mp hx)
      rw [← hpx]
      rfl
    have hall := mergeLoop_all (P := fun t => t.subNodesOrdered = true)
      hP H.length H hinit
    rw [hM] at hall
    first
      | exact hall a (by simp)
      | exact hall b (by simp)
  }

theorem from_table_none (data : List Nat)
    (hlt : (tableLeaves data).length < 2) : from_table data = none := by
  have hH : (heapOfList (tableLeaves data)).length ≤ 1 := by
    rw [(heapOfList_perm _).length_eq]
    omega
  simp only [from_table]
  rw [mergeLoop_of_le_two (by omega)]
  rcases hE : heapOfList (tableLeaves data) with _ | ⟨x, _ | ⟨y, rest⟩⟩
  · rfl
  · rfl
  · rw [hE] at hH
    simp at hH

theorem from_table_isSome (data : List Nat) :
    (from_table data).isSome ↔ 2 ≤ (tableLeaves data).length := by
  constructor
  · intro hs
    by_contra hlt
    rw [from_table_none data (by omega)] at hs
    simp at hs
  · intro h2
    obtain ⟨a, b, hft, -⟩ := from_table_spec data h2
    simp [hft]

/-! ### Counting nonzero entries and distinct bytes -/

theorem enumFrom_filter_snd_length {α : Type} (p : α → Bool) :
    ∀ (d : List α) (n : Nat),
      ((d.enumFrom n).filter (fun x => p x.2)).length = d.countP p
  | [], _ => rfl
  | c :: rest, n => by
    simp only [List.enumFrom_cons, List.filter_cons, List.countP_cons]
    by_cases hc : p c
    · simp [hc, enumFrom_filter_snd_length p rest (n + 1)]
    · simp [hc, enumFrom_filter_snd_length p rest (n + 1)]

theorem nonzeroPairs_length (d : List Nat) :
    (nonzeroPairs d).length = d.countP (fun c => decide (0 < c)) := by
  unfold nonzeroPairs
  rw [List.enum_eq_enumFrom]
  exact enumFrom_filter_snd_length (fun c => decide (0 < c)) d 0

theorem tableLeaves_length (d : List Nat) :
    (tableLeaves d).length = (nonzeroPairs d).length :=
  List.length_map _ _

/-- The normalized probability table of a sample, i.e. the value wrapped in
`some` that `normalize` returns inside `from_data`. -/
def normTable (data : List Nat) : List Nat :=
  (countsOf data).map fun c =>
    if 0 < c then Nat.max (c * 255 / maxCount data) 1 else 0

theorem from_data_eq (data : List Nat) :
    from_data data = from_table (normTable data) := by
  unfold from_data normTable
  rw [normalize_eq_map counts_le_maxCount]
  rfl

theorem normTable_length (data : List Nat) : (normTable data).length = 256 := by
  simp [normTable, countsOf]

theorem normTable_countP (data : List Nat) :
    (normTable data).countP (fun c => decide (0 < c)) =
      ((List.range 256).filter (fun i => decide (i ∈ data))).length := by
  unfold normTable countsOf
  rw [List.countP_map, List.countP_map, ← List.countP_eq_length_filter]
  apply List.countP_congr
  intro i _
  simp only [Function.comp_apply, decide_eq_true_eq]
  constructor
  · intro hpos
    by_cases hc : 0 < data.count i
    · exact List.count_pos_iff.mp hc
    · simp [Nat.eq_zero_of_not_pos hc] at hpos
  · intro hmem
    have hc : 0 < data.count i := List.count_pos_iff.mpr hmem
    simp [hc]

theorem two_le_length_of_pair {α : Type} {l : List α} {a b : α}
    (ha : a ∈ l) (hb : b ∈ l) (hne : a ≠ b) : 2 ≤ l.length := by
  cases l with
  | nil => cases ha
  | cons x xs =>
    simp only [List.length_cons]
    rcases List.mem_cons.mp ha with rfl | ha'
    · rcases List.mem_cons.mp hb with rfl | hb'
      · exact absurd rfl hne
      · have := List.length_pos.mpr (List.ne_nil_of_mem hb')
        omega
    · have := List.length_pos.mpr (List.ne_nil_of_mem ha')
      omega

theorem exists_pair_of_two_le {α : Type} {l : List α} (hnd : l.Nodup)
    (h2 : 2 ≤ l.length) : ∃ a b, a ∈ l ∧ b ∈ l ∧ a ≠ b := by
  match l, hnd, h2 with
  | x :: y :: rest, hnd, _ =>
    refine ⟨x, y, by simp, by simp, ?_⟩
    intro hxy
    exact (List.nodup_cons.mp hnd).1 (hxy ▸ List.mem_cons_self y rest)

theorem distinct_filter_length (data : List Nat) (h : ∀ b ∈ data, b < 256) :
    2 ≤ ((List.range 256).filter (fun i => decide (i ∈ data))).length ↔
      ∃ a b, a ∈ data ∧ b ∈ data ∧ a ≠ b := by
  constructor
  · intro h2
    obtain ⟨a, b, ha, hb, hne⟩ := exists_pair_of_two_le
      ((List.nodup_range 256).filter _) h2
    exact ⟨a, b, by simpa using (List.mem_filter.mp ha).2,
      by simpa using (List.mem_filter.mp hb).2, hne⟩
  · intro ⟨a, b, ha, hb, hne⟩
    apply two_le_length_of_pair (a := a) (b := b) _ _ hne
    · exact List.mem_filter.mpr ⟨List.mem_range.mpr (h a ha), by simpa using ha⟩
    · exact List.mem_filter.mpr ⟨List.mem_range.mpr (h b hb), by simpa using hb⟩

/-- C3 (amended): `from_data` succeeds exactly when the input contains at
least 2 distinct byte values; it fails (a `pop().unwrap()` panic) on the
empty input and on inputs with a single distinct byte value. -/
theorem from_data_isSome_iff (data : List Nat) (h : ∀ b ∈ data, b < 256) :
    (from_data data).isSome ↔ ∃ a b, a ∈ data ∧ b ∈ data ∧ a ≠ b := by
  rw [from_data_eq, from_table_isSome, tableLeaves_length, nonzeroPairs_length,
    normTable_countP]
  exact distinct_filter_length data h

/-- Witness for `from_data_isSome_iff`: `[0, 0, 1, 2, 2]` has two distinct
bytes and `from_data` succeeds on it. -/
theorem from_data_isSome_iff_witness :
    (∀ b ∈ [0, 0, 1, 2, 2], b < 256) ∧
      ((from_data [0, 0, 1, 2, 2]).isSome ↔
        ∃ a b, a ∈ [0, 0, 1, 2, 2] ∧ b ∈ [0, 0, 1, 2, 2] ∧ a ≠ b) :=
  ⟨by decide, from_data_isSome_iff [0, 0, 1, 2, 2] (by decide)⟩

/-- Counterexample to C3 as stated: the claim says `from_data` succeeds on
every non-empty input, but on the non-empty input `[5]` (one distinct byte
value) the second `heap.pop().unwrap()` at `src/lib.rs:121` panics. -/
theorem from_data_single_counterexample :
    ([5] : List Nat) ≠ [] ∧ from_data [5] = none := by
  constructor
  · decide
  · rfl

/-! ### C9: leaf structure of trees built by `from_table` -/

theorem nonzeroPairs_keys_nodup (d : List Nat) :
    ((nonzeroPairs d).map Prod.fst).Nodup := by
  unfold nonzeroPairs
  exact (List.nodup_enum_map_fst d).sublist ((List.filter_sublist _).map Prod.fst)

/-- C9: for every 256-entry probability table with at least 2 nonzero
entries, `from_table` returns a tree whose leaves are, up to order, exactly
the nonzero `(index, weight)` table entries, each leaf symbol occurring
once, with `N` leaves and `N - 1` internal nodes. -/
theorem from_table_leaf_structure (data : List Nat) (_hlen : data.length = 256)
    (h2 : 2 ≤ (nonzeroPairs data).length) :
    ∃ t, from_table data = some t ∧
      t.leafPairs ~ nonzeroPairs data ∧
      (t.leafPairs.map Prod.fst).Nodup ∧
      t.numLeaves = (nonzeroPairs data).length ∧
      t.numNodes = (nonzeroPairs data).length - 1 := by
  obtain ⟨a, b, hft, hperm, -, -, -⟩ :=
    from_table_spec data (by rw [tableLeaves_length]; exact h2)
  have hperm' : (HuffmanTree.node a b).leafPairs ~ nonzeroPairs data := by
    simpa [leafPairs] using hperm
  have hlenL : (HuffmanTree.node a b).numLeaves = (nonzeroPairs data).length := by
    rw [← leafPairs_length]
    exact hperm'.length_eq
  refine ⟨.node a b, hft, hperm', ?_, hlenL, ?_⟩
  · exact (hperm'.map Prod.fst).nodup_iff.mpr (nonzeroPairs_keys_nodup data)
  · have := numNodes_add_one (HuffmanTree.node a b)
    omega

/-- Witness for `from_table_leaf_structure` at the table
`{0 ↦ 255, 1 ↦ 128, 2 ↦ 255}` (the library's doc-test table). -/
theorem from_table_leaf_structure_witness :
    ((((List.replicate 256 0).set 0 255).set 1 128).set 2 255).length = 256 ∧
      2 ≤ (nonzeroPairs ((((List.replicate 256 0).set 0 255).set 1 128).set 2 255)).length ∧
      ∃ t, from_table ((((List.replicate 256 0).set 0 255).set 1 128).set 2 255) = some t ∧
        t.leafPairs ~ nonzeroPairs ((((List.replicate 256 0).set 0 255).set 1 128).set 2 255) ∧
        (t.leafPairs.map Prod.fst).Nodup ∧
        t.numLeaves = (nonzeroPairs ((((List.replicate 256 0).set 0 255).set 1 128).set 2 255)).length ∧
        t.numNodes = (nonzeroPairs ((((List.replicate 256 0).set 0 255).set 1 128).set 2 255)).length - 1 :=
  ⟨by decide, by decide,
    from_table_leaf_structure _ (by decide) (by decide)⟩

/-! ### C10: child ordering inside trees built by `from_table` -/

/-- C10 (amended): every tree returned by `from_table` is a root `node a b`
whose merge-built subtrees `a` and `b` have the zero child's probability at
least the one child's in every internal node, while at the root itself the
zero child `a` is the first of the two final pops and so has probability at
most that of `b` (the root is `Node(a, b)` with no swap,
`src/lib.rs:120-122`). -/
theorem from_table_child_order (data : List Nat) (t : HuffmanTree)
    (ht : from_table data = some t) :
    ∃ a b, t = .node a b ∧ a.getProbability ≤ b.getProbability ∧
      a.subNodesOrdered = true ∧ b.subNodesOrdered = true := by
  have h2 : 2 ≤ (tableLeaves data).length :=
    (from_table_isSome data).mp (by simp [ht])
  obtain ⟨a, b, hft, -, hle, ha, hb⟩ := from_table_spec data h2
  rw [ht] at hft
  exact ⟨a, b, Option.some.inj hft, hle, ha, hb⟩

/-- Witness for `from_table_child_order` at the table `{10 ↦ 5, 20 ↦ 5}`. -/
theorem from_table_child_order_witness :
    ∃ a b, HuffmanTree.node (.leaf 20 5) (.leaf 10 5) = HuffmanTree.node a b ∧
      a.getProbability ≤ b.getProbability ∧
      a.subNodesOrdered = true ∧ b.subNodesOrdered = true :=
  from_table_child_order (((List.replicate 256 0).set 10 5).set 20 5)
    (HuffmanTree.node (.leaf 20 5) (.leaf 10 5)) (by rfl)

/-- Counterexample to C10 as stated: on the table `{0 ↦ 1, 1 ↦ 2}` the
returned root has zero child `Leaf(0, 1)` and one child `Leaf(1, 2)`, whose
aggregate probability 2 exceeds the zero child's 1 — the final
`Node(a, b)` at `src/lib.rs:120-122` keeps pop order and does not reorder
by probability. -/
theorem from_table_root_unordered_counterexample :
    from_table (((List.replicate 256 0).set 0 1).set 1 2) =
      some (HuffmanTree.node (.leaf 0 1) (.leaf 1 2)) ∧
    ¬ ((HuffmanTree.leaf 1 2).getProbability ≤
        (HuffmanTree.leaf 0 1).getProbability) :=
  ⟨by rfl, by decide⟩

/-! ### C7: `to_table` / `from_table` round-trip -/

theorem get_byte_prob_eq_none_iff :
    ∀ (t : HuffmanTree) (b : Nat),
      t.get_byte_prob b = none ↔ ∀ p ∈ t.leafPairs, p.1 ≠ b
  | .leaf s w, b => by
    by_cases hsb : s = b <;> simp [get_byte_prob, leafPairs, hsb]
  | .node zero one, b => by
    simp only [get_byte_prob, leafPairs, Option.or_eq_none, List.mem_append,
      get_byte_prob_eq_none_iff zero b, get_byte_prob_eq_none_iff one b]
    constructor
    · rintro ⟨h1, h2⟩ p (hp | hp)
      · exact h1 p hp
      · exact h2 p hp
    · intro h
      exact ⟨fun p hp => h p (Or.inl hp), fun p hp => h p (Or.inr hp)⟩

theorem get_byte_prob_of_mem :
    ∀ (t : HuffmanTree), (t.leafPairs.map Prod.fst).Nodup →
      ∀ {b w : Nat}, (b, w) ∈ t.leafPairs → t.get_byte_prob b = some w
  | .leaf s v, _, b, w, hmem => by
    simp only [leafPairs, List.mem_singleton, Prod.mk.injEq] at hmem
    simp [get_byte_prob, hmem.1, hmem.2]
  | .node zero one, hnd, b, w, hmem => by
    rw [leafPairs, List.map_append] at hnd
    obtain ⟨hnd1, hnd2, hdisj⟩ := List.nodup_append.mp hnd
    rw [leafPairs, List.mem_append] at hmem
    rcases hmem with hmem | hmem
    · rw [get_byte_prob, get_byte_prob_of_mem zero hnd1 hmem]
      rfl
    · have hb1 : b ∈ one.leafPairs.map Prod.fst :=
        List.mem_map_of_mem Prod.fst hmem
      have hz : zero.get_byte_prob b = none := by
        rw [get_byte_prob_eq_none_iff]
        intro p hp hpb
        exact hdisj (hpb ▸ List.mem_map_of_mem Prod.fst hp) hb1
      rw [get_byte_prob, hz, get_byte_prob_of_mem one hnd2 hmem]
      rfl

theorem to_table_eq_of_perm (data : List Nat) (hlen : data.length = 256)
    (t : HuffmanTree) (hperm : t.leafPairs ~ nonzeroPairs data)
    (hnd : (t.leafPairs.map Prod.fst).Nodup) :
    to_table t = data := by
  apply List.ext_getElem?
  intro i
  by_cases hi : i < 256
  · have hi' : i < data.length := hlen ▸ hi
    obtain ⟨v, hv⟩ : ∃ v, data[i]? = some v :=
      ⟨_, List.getElem?_eq_getElem hi'⟩
    rw [to_table, List.getElem?_map, List.getElem?_range hi, hv,
      Option.map_some']
    by_cases hvz : 0 < v
    · have henum : (i, v) ∈ data.enum :=
        List.mk_mem_enum_iff_getElem?.mpr hv
      have hmem : (i, v) ∈ nonzeroPairs data :=
        List.mem_filter.mpr ⟨henum, by simpa using hvz⟩
      rw [get_byte_prob_of_mem t hnd (hperm.mem_iff.mpr hmem)]
      rfl
    · have hnone : t.get_byte_prob i = none := by
        rw [get_byte_prob_eq_none_iff]
        intro p hp hpi
        have hmem : p ∈ nonzeroPairs data := hperm.mem_iff.mp hp
        have hppos : 0 < p.2 := by simpa using (List.mem_filter.mp hmem).2
        have henum : (p.1, p.2) ∈ data.enum := (List.mem_filter.mp hmem).1
        have : data[p.1]? = some p.2 := List.mk_mem_enum_iff_getElem?.mp henum
        rw [hpi, hv] at this
        exact hvz (Option.some.inj this ▸ hppos)
      rw [hnone]
      simp [Nat.eq_zero_of_not_pos hvz]
  · have h1 : (to_table t).length ≤ i := by
      simp only [to_table, List.length_map, List.length_range]
      omega
    rw [List.getElem?_eq_none h1, List.getElem?_eq_none (by omega : data.length ≤ i)]

/-- C7: a tree built by `from_data` from a sample with at least 2 distinct
byte values is rebuilt structurally identical by
`from_table (to_table tree)`. -/
theorem table_roundtrip (data : List Nat) (_h : ∀ b ∈ data, b < 256)
    (_hdist : ∃ a b, a ∈ data ∧ b ∈ data ∧ a ≠ b)
    (t : HuffmanTree) (ht : from_data data = some t) :
    from_table (to_table t) = some t := by
  rw [from_data_eq] at ht
  have h2 : 2 ≤ (tableLeaves (normTable data)).length :=
    (from_table_isSome (normTable data)).mp (by simp [ht])
  obtain ⟨a, b, hft, hperm, -, -, -⟩ := from_table_spec (normTable data) h2
  rw [ht] at hft
  obtain rfl : t = .node a b := Option.some.inj hft
  have hperm' : (HuffmanTree.node a b).leafPairs ~ nonzeroPairs (normTable data) := by
    simpa [leafPairs] using hperm
  have hnd : ((HuffmanTree.node a b).leafPairs.map Prod.fst).Nodup :=
    (hperm'.map Prod.fst).nodup_iff.mpr (nonzeroPairs_keys_nodup _)
  rw [to_table_eq_of_perm (normTable data) (normTable_length data) _ hperm' hnd]
  exact ht

/-- Witness for `table_roundtrip` on the sample `[0, 0, 1, 2, 2]`. -/
theorem table_roundtrip_witness :
    from_table (to_table (HuffmanTree.node (.leaf 0 255)
        (.node (.leaf 2 255) (.leaf 1 127)))) =
      some (HuffmanTree.node (.leaf 0 255)
        (.node (.leaf 2 255) (.leaf 1 127))) :=
  table_roundtrip [0, 0, 1, 2, 2] (by decide)
    ⟨0, 1, by decide, by decide, by decide⟩ _ (by rfl)

/-! ### The encoder's lookup table and paths through the tree -/

theorem lookupInner_some (t : HuffmanTree) :
    ∀ (data : Nat → Option (List Bool)) (prev : List Bool) (b : Nat)
      (p : List Bool), lookupInner t data prev b = some p →
      (∃ q w, p = prev ++ q ∧ followPath t q = some (.leaf b w)) ∨
        data b = some p := by
  induction t with
  | leaf s v =>
    intro data prev b p hp
    simp only [lookupInner] at hp
    by_cases hbs : b = s
    · subst hbs
      rw [if_pos rfl] at hp
      exact Or.inl ⟨[], v, by simpa using (Option.some.inj hp).symm, rfl⟩
    · rw [if_neg hbs] at hp
      exact Or.inr hp
  | node zero one ihz iho =>
    intro data prev b p hp
    rw [lookupInner] at hp
    rcases iho _ _ _ _ hp with ⟨q, w, hpq, hfp⟩ | hp1
    · refine Or.inl ⟨true :: q, w, ?_, ?_⟩
      · simpa using hpq
      · simpa [followPath] using hfp
    · rcases ihz _ _ _ _ hp1 with ⟨q, w, hpq, hfp⟩ | hp2
      · refine Or.inl ⟨false :: q, w, ?_, ?_⟩
        · simpa using hpq
        · simpa [followPath] using hfp
      · exact Or.inr hp2

theorem lookupInner_fallthrough (t : HuffmanTree) :
    ∀ (data : Nat → Option (List Bool)) (prev : List Bool) (b : Nat)
      (q : List Bool), data b = some q →
      ∃ p, lookupInner t data prev b = some p := by
  induction t with
  | leaf s v =>
    intro data prev b q hq
    simp only [lookupInner]
    by_cases hbs : b = s
    · exact ⟨prev, by rw [if_pos hbs]⟩
    · exact ⟨q, by rw [if_neg hbs]; exact hq⟩
  | node zero one ihz iho =>
    intro data prev b q hq
    rw [lookupInner]
    obtain ⟨p1, hp1⟩ := ihz data (prev ++ [false]) b q hq
    exact iho _ (prev ++ [true]) b p1 hp1

theorem lookupInner_covers (t : HuffmanTree) :
    ∀ {b w : Nat}, (b, w) ∈ t.leafPairs →
      ∀ (data : Nat → Option (List Bool)) (prev : List Bool),
        ∃ p, lookupInner t data prev b = some p := by
  induction t with
  | leaf s v =>
    intro b w hmem data prev
    simp only [leafPairs, List.mem_singleton, Prod.mk.injEq] at hmem
    exact ⟨prev, by simp only [lookupInner]; rw [if_pos hmem.1]⟩
  | node zero one ihz iho =>
    intro b w hmem data prev
    rw [leafPairs, List.mem_append] at hmem
    rw [lookupInner]
    rcases hmem with hmem | hmem
    · obtain ⟨p1, hp1⟩ := ihz hmem data (prev ++ [false])
      exact lookupInner_fallthrough one _ (prev ++ [true]) b p1 hp1
    · exact iho hmem _ (prev ++ [true])

theorem to_lookup_table_some (t : HuffmanTree) {b : Nat} {p : List Bool}
    (hp : to_lookup_table t b = some p) :
    ∃ w, followPath t p = some (.leaf b w) := by
  rcases lookupInner_some t _ [] b p hp with ⟨q, w, hpq, hfp⟩ | hnone
  · simp only [List.nil_append] at hpq
    exact ⟨w, hpq ▸ hfp⟩
  · cases hnone

theorem followPath_leaf_mem :
    ∀ (p : List Bool) (t : HuffmanTree) {b w : Nat},
      followPath t p = some (.leaf b w) → (b, w) ∈ t.leafPairs
  | [], t, b, w, hp => by
    cases t with
    | leaf s v =>
      rw [followPath] at hp
      rw [Option.some.inj hp]
      simp [leafPairs]
    | node zero one =>
      rw [followPath] at hp
      cases Option.some.inj hp
  | bit :: rest, t, b, w, hp => by
    cases t with
    | leaf s v => cases hp
    | node zero one =>
      rw [followPath] at hp
      rw [leafPairs, List.mem_append]
      cases bit with
      | false => exact Or.inl (followPath_leaf_mem rest zero (by simpa using hp))
      | true => exact Or.inr (followPath_leaf_mem rest one (by simpa using hp))

theorem to_lookup_table_none_iff (t : HuffmanTree) (b : Nat) :
    to_lookup_table t b = none ↔ b ∉ t.leafPairs.map Prod.fst := by
  constructor
  · intro hnone hb
    obtain ⟨⟨b', w⟩, hmem, hb'⟩ := List.mem_map.mp hb
    cases hb'
    obtain ⟨p, hp⟩ := lookupInner_covers t hmem (fun _ => none) []
    rw [to_lookup_table] at hnone
    rw [hnone] at hp
    cases hp
  · intro hb
    cases hsome : to_lookup_table t b with
    | none => rfl
    | some p =>
      obtain ⟨w, hfp⟩ := to_lookup_table_some t hsome
      exact absurd (List.mem_map_of_mem Prod.fst (followPath_leaf_mem p t hfp)) hb

/-! ### Encoder and decoder behaviour -/

theorem writeBytes_ok (table : Nat → Option (List Bool)) :
    ∀ buf : List Nat, (∀ b ∈ buf, (table b).isSome) →
      writeBytes table buf =
        some (buf.length, buf.flatMap (fun b => (table b).getD []))
  | [], _ => rfl
  | b :: rest, hall => by
    obtain ⟨bits, hbits⟩ := Option.isSome_iff_exists.mp
      (hall b (List.mem_cons_self b rest))
    rw [writeBytes, hbits,
      writeBytes_ok table rest (fun x hx => hall x (List.mem_cons_of_mem b hx))]
    simp [hbits]

theorem writeBytes_none_iff (table : Nat → Option (List Bool)) :
    ∀ buf : List Nat,
      (writeBytes table buf = none ↔ ∃ b ∈ buf, table b = none)
  | [] => by simp [writeBytes]
  | b :: rest => by
    rw [writeBytes]
    cases hb : table b with
    | none => simp [hb]
    | some bits =>
      cases hw : writeBytes table rest with
      | none =>
        have := (writeBytes_none_iff table rest).mp hw
        simp only [List.mem_cons]
        constructor
        · intro
          obtain ⟨x, hx1, hx2⟩ := this
          exact ⟨x, Or.inr hx1, hx2⟩
        · exact fun _ => trivial
      | some out =>
        obtain ⟨n, o⟩ := out
        simp only [List.mem_cons]
        constructor
        · intro h
          cases h
        · rintro ⟨x, hx1 | hx1, hx2⟩
          · rw [hx1] at hx2
            rw [hx2] at hb
            cases hb
          · have := (writeBytes_none_iff table rest).mpr ⟨x, hx1, hx2⟩
            rw [hw] at this
            cases this

theorem readLoop_step (root : HuffmanTree) :
    ∀ (p : List Bool) (state : HuffmanTree), (∃ z o, state = .node z o) →
      ∀ {b w : Nat} (rest : List Bool) (n : Nat),
        followPath state p = some (.leaf b w) →
        readLoop root state (p ++ rest) (n + 1) =
          (readLoop root root rest n).map (fun l => b :: l)
  | [], state, ⟨z, o, hzo⟩, b, w, rest, n, h => by
    subst hzo
    rw [followPath] at h
    cases Option.some.inj h
  | bit :: p', state, ⟨z, o, hzo⟩, b, w, rest, n, h => by
    subst hzo
    rw [followPath] at h
    cases bit with
    | false =>
      simp only [Bool.false_eq_true, if_neg] at h
      cases hz : z with
      | leaf x v =>
        rw [hz] at h
        cases p' with
        | nil =>
          rw [followPath] at h
          cases Option.some.inj h
          simp [readLoop, hz]
        | cons b2 p2 => cases h
      | node z2 o2 =>
        rw [hz] at h
        have := readLoop_step root p' (.node z2 o2) ⟨z2, o2, rfl⟩ rest n h
        simpa [readLoop, hz] using this
    | true =>
      simp only [if_pos rfl] at h
      cases ho : o with
      | leaf x v =>
        rw [ho] at h
        cases p' with
        | nil =>
          rw [followPath] at h
          cases Option.some.inj h
          simp [readLoop, ho]
        | cons b2 p2 => cases h
      | node z2 o2 =>
        rw [ho] at h
        have := readLoop_step root p' (.node z2 o2) ⟨z2, o2, rfl⟩ rest n h
        simpa [readLoop, ho] using this

theorem readLoop_decode (t : HuffmanTree) (hroot : ∃ z o, t = .node z o) :
    ∀ (S : List Nat) (n : Nat), S.length ≤ n →
      (∀ b ∈ S, ∃ p w, to_lookup_table t b = some p ∧
        followPath t p = some (.leaf b w)) →
      readLoop t t (S.flatMap (fun b => (to_lookup_table t b).getD [])) n =
        some S := by
  intro S
  induction S with
  | nil =>
    intro n _ _
    cases n with
    | zero => rfl
    | succ n => simp [readLoop]
  | cons b S' ih =>
    intro n hlen hall
    obtain ⟨p, w, hp, hfp⟩ := hall b (List.mem_cons_self b S')
    cases n with
    | zero => simp at hlen
    | succ n =>
      rw [List.flatMap_cons, hp, Option.getD_some,
        readLoop_step t p t hroot _ n hfp,
        ih n (Nat.le_of_succ_le_succ hlen)
          (fun x hx => hall x (List.mem_cons_of_mem b hx))]
      rfl

theorem normTable_pos (data : List Nat) {b : Nat} (hb : b ∈ data)
    (h256 : b < 256) :
    ∃ v, (normTable data)[b]? = some v ∧ 0 < v := by
  rw [normTable, List.getElem?_map, countsOf_getElem? h256, Option.map_some']
  have hc : 0 < data.count b := List.count_pos_iff.mpr hb
  exact ⟨_, rfl, by simp [hc]⟩

/-- For a tree successfully built by `from_data`, every input byte has a
lookup-table entry whose bit path leads from the root to that byte's
leaf. -/
theorem from_data_covers (S : List Nat) (h : ∀ b ∈ S, b < 256)
    (t : HuffmanTree) (ht : from_data S = some t) :
    (∃ z o, t = .node z o) ∧
      ∀ x ∈ S, ∃ p w, to_lookup_table t x = some p ∧
        followPath t p = some (.leaf x w) := by
  rw [from_data_eq] at ht
  have h2 : 2 ≤ (tableLeaves (normTable S)).length :=
    (from_table_isSome _).mp (by simp [ht])
  obtain ⟨a, b, hft, hperm, -, -, -⟩ := from_table_spec (normTable S) h2
  rw [ht] at hft
  obtain rfl : t = .node a b := Option.some.inj hft
  have hperm' : (HuffmanTree.node a b).leafPairs ~ nonzeroPairs (normTable S) := by
    simpa [leafPairs] using hperm
  refine ⟨⟨a, b, rfl⟩, ?_⟩
  intro x hx
  obtain ⟨v, hv, hvpos⟩ := normTable_pos S hx (h x hx)
  have henum : (x, v) ∈ (normTable S).enum :=
    List.mk_mem_enum_iff_getElem?.mpr hv
  have hmem : (x, v) ∈ nonzeroPairs (normTable S) :=
    List.mem_filter.mpr ⟨henum, by simpa using hvpos⟩
  obtain ⟨p, hp⟩ :=
    lookupInner_covers _ (hperm'.mem_iff.mpr hmem) (fun _ => none) []
  obtain ⟨w, hw⟩ := to_lookup_table_some _ hp
  exact ⟨p, w, hp, hw⟩

/-- Shared core of the round-trip claims: encoding a sample with the tree
built from it emits the concatenated bit paths, and decoding them with any
buffer of at least the sample's length recovers the sample exactly. -/
theorem from_data_encode_decode (S : List Nat) (h : ∀ b ∈ S, b < 256)
    (t : HuffmanTree) (ht : from_data S = some t) (n : Nat)
    (hn : S.length ≤ n) :
    writeBytes (to_lookup_table t) S =
      some (S.length, S.flatMap (fun b => (to_lookup_table t b).getD [])) ∧
    readLoop t t (S.flatMap (fun b => (to_lookup_table t b).getD [])) n =
      some S := by
  obtain ⟨hroot, hcover⟩ := from_data_covers S h t ht
  constructor
  · apply writeBytes_ok
    intro x hx
    obtain ⟨p, w, hp, -⟩ := hcover x hx
    simp [hp]
  · exact readLoop_decode t hroot S n hn hcover

/-- C1: for a sample with at least 2 distinct byte values, writing the
sample through a `HuffmanWriter` built on `from_data`'s tree and reading
the emitted bits back through a `HuffmanReader` on the same tree
reproduces the sample exactly. -/
theorem encode_decode_roundtrip (S : List Nat) (h : ∀ b ∈ S, b < 256)
    (_hdist : ∃ a b, a ∈ S ∧ b ∈ S ∧ a ≠ b) (t : HuffmanTree)
    (ht : from_data S = some t) :
    ∃ bits, writeBytes (to_lookup_table t) S = some (S.length, bits) ∧
      readLoop t t bits S.length = some S :=
  ⟨_, (from_data_encode_decode S h t ht S.length le_rfl).1,
    (from_data_encode_decode S h t ht S.length le_rfl).2⟩

/-- Witness for `encode_decode_roundtrip` on the sample `[0, 0, 1, 2, 2]`. -/
theorem encode_decode_roundtrip_witness :
    ∃ bits, writeBytes (to_lookup_table (HuffmanTree.node (.leaf 0 255)
        (.node (.leaf 2 255) (.leaf 1 127)))) [0, 0, 1, 2, 2] =
        some (([0, 0, 1, 2, 2] : List Nat).length, bits) ∧
      readLoop (HuffmanTree.node (.leaf 0 255)
          (.node (.leaf 2 255) (.leaf 1 127)))
        (HuffmanTree.node (.leaf 0 255) (.node (.leaf 2 255) (.leaf 1 127)))
        bits ([0, 0, 1, 2, 2] : List Nat).length = some [0, 0, 1, 2, 2] :=
  encode_decode_roundtrip [0, 0, 1, 2, 2] (by decide)
    ⟨0, 1, by decide, by decide, by decide⟩ _ (by rfl)

/-- C2: the decoder's termination rule.  If the bit source is exhausted
while the walk state is (structurally) the root, `read` returns `Ok` with
the bytes produced so far — in particular a read against an exhausted
stream returns zero bytes; if it is exhausted mid-walk, `read` returns the
`InvalidData` error; and decoding an encoder-produced stream of `L` bytes
into any buffer of size at least `L` cleanly produces exactly the `L`
bytes. -/
theorem read_termination :
    (∀ (root : HuffmanTree) (n : Nat), readLoop root root [] n = some []) ∧
    (∀ (root state : HuffmanTree) (n : Nat), 0 < n → state ≠ root →
      readLoop root state [] n = none) ∧
    (∀ (S : List Nat) (t : HuffmanTree) (k : Nat), (∀ b ∈ S, b < 256) →
      from_data S = some t →
      ∀ bits, writeBytes (to_lookup_table t) S = some (S.length, bits) →
        readLoop t t bits (S.length + k) = some S) := by
  refine ⟨?_, ?_, ?_⟩
  · intro root n
    cases n with
    | zero => rfl
    | succ n => simp [readLoop]
  · intro root state n hn hne
    cases n with
    | zero => cases hn
    | succ n => simp [readLoop, hne]
  · intro S t k h ht bits hbits
    obtain ⟨hw, hr⟩ :=
      from_data_encode_decode S h t ht (S.length + k) (Nat.le_add_right _ _)
    rw [hw] at hbits
    obtain ⟨-, rfl⟩ : S.length = S.length ∧
        S.flatMap (fun b => (to_lookup_table t b).getD []) = bits := by
      have := Option.some.inj hbits
      exact ⟨congrArg Prod.fst this, congrArg Prod.snd this⟩
    exact hr

/-- Witness for `read_termination`: a clean end of stream at the root, a
truncation error mid-walk, and the exact-length decode of the encoded
sample `[0, 0, 1, 2, 2]` with one spare byte of buffer. -/
theorem read_termination_witness :
    readLoop (HuffmanTree.leaf 7 1) (HuffmanTree.leaf 7 1) [] 3 = some [] ∧
    readLoop (HuffmanTree.node (.leaf 0 1) (.leaf 1 2)) (.leaf 0 1) [] 1 =
      none ∧
    readLoop (HuffmanTree.node (.leaf 0 255)
        (.node (.leaf 2 255) (.leaf 1 127)))
      (HuffmanTree.node (.leaf 0 255) (.node (.leaf 2 255) (.leaf 1 127)))
      [false, false, true, true, true, false, true, false]
      (([0, 0, 1, 2, 2] : List Nat).length + 1) = some [0, 0, 1, 2, 2] :=
  ⟨read_termination.1 (HuffmanTree.leaf 7 1) 3,
    read_termination.2.1 (HuffmanTree.node (.leaf 0 1) (.leaf 1 2))
      (.leaf 0 1) 1 (by decide) (by decide),
    read_termination.2.2 [0, 0, 1, 2, 2] _ 1 (by decide) (by rfl)
      [false, false, true, true, true, false, true, false] (by rfl)⟩

/-- C8: `HuffmanWriter::write` errors exactly when the buffer contains a
byte that is not a leaf symbol of the tree (no entry in the lookup table);
when every byte is covered it returns `Ok(buf.len())`. -/
theorem write_error_iff (t : HuffmanTree) (buf : List Nat) :
    (writeBytes (to_lookup_table t) buf = none ↔
      ∃ b ∈ buf, b ∉ t.leafPairs.map Prod.fst) ∧
    ((∀ b ∈ buf, b ∈ t.leafPairs.map Prod.fst) →
      ∃ bits, writeBytes (to_lookup_table t) buf =
        some (buf.length, bits)) := by
  constructor
  · rw [writeBytes_none_iff]
    constructor
    · rintro ⟨b, hb, hnone⟩
      exact ⟨b, hb, (to_lookup_table_none_iff t b).mp hnone⟩
    · rintro ⟨b, hb, hkey⟩
      exact ⟨b, hb, (to_lookup_table_none_iff t b).mpr hkey⟩
  · intro hall
    refine ⟨_, writeBytes_ok _ buf ?_⟩
    intro b hb
    rw [← Option.ne_none_iff_isSome]
    intro hnone
    exact absurd (hall b hb) ((to_lookup_table_none_iff t b).mp hnone)

/-- Witness for `write_error_iff` at a two-leaf tree: `[0, 9]` contains the
unencodable byte 9, while `[0, 1, 1]` is fully covered. -/
theorem write_error_iff_witness :
    (writeBytes (to_lookup_table (HuffmanTree.node (.leaf 0 1) (.leaf 1 2)))
        [0, 9] = none ↔
      ∃ b ∈ [0, 9],
        b ∉ (HuffmanTree.node (.leaf 0 1) (.leaf 1 2)).leafPairs.map Prod.fst) ∧
    ((∀ b ∈ [0, 9],
        b ∈ (HuffmanTree.node (.leaf 0 1) (.leaf 1 2)).leafPairs.map Prod.fst) →
      ∃ bits, writeBytes (to_lookup_table (HuffmanTree.node (.leaf 0 1)
          (.leaf 1 2))) [0, 9] = some (([0, 9] : List Nat).length, bits)) :=
  write_error_iff (HuffmanTree.node (.leaf 0 1) (.leaf 1 2)) [0, 9]
